import Mathlib

/-!
Verification of the core logic of `stapp-pdf-extractor`:
`filter_text_lines` (src/logic/utils/filter_text_lines.py) and
`PDFExtractor.extract_sections` (src/logic/PDFExtractor.py).

Python strings are modelled as `List Char` (a Python `str` is a sequence of
characters; `len`, slicing and `in` translate directly). Python's `re` module
is external to the repository; it is modelled by a small total regex engine
(`PyRe`) with Python semantics for the features the program relies on:
`re.compile` failing on malformed patterns and `search` (match anywhere)
semantics, with `^`/`$` anchors, `\s`/`\d`/`\w` classes, `.`, `*`, `+`, `?`,
grouping and alternation.
-/

/-- A Python `str`, modelled as its sequence of characters. -/
abbrev Str := List Char

/-- Python `str.strip()` whitespace test (ASCII whitespace). -/
def isPySpace (c : Char) : Bool :=
  c = ' ' || c = '\t' || c = '\n' || c = '\r' || c = '\x0b' || c = '\x0c'

/-- Python `str.strip()`: remove leading and trailing whitespace. -/
def pyStrip (s : Str) : Str :=
  ((s.dropWhile isPySpace).reverse.dropWhile isPySpace).reverse

/-- Python `text.split("\n")`: split at every newline; the result is never
empty and `"".split("\n") == [""]`. -/
def splitLines : Str → List Str
  | [] => [[]]
  | c :: cs =>
    if c = '\n' then [] :: splitLines cs
    else
      match splitLines cs with
      | l :: ls => (c :: l) :: ls
      | [] => [[c]]

/-- Python `"\n".join(lines)`. -/
def joinLines : List Str → Str
  | [] => []
  | [l] => l
  | l :: ls => l ++ '\n' :: joinLines ls

namespace PyRe

/-- Predefined character classes (`\d`, `\s`, `\w` and their negations). -/
inductive ClassKind where
  | digit
  | space
  | word
deriving DecidableEq

/-- Whether `c` belongs to class `k` (negated when `neg` is true). -/
def inClass (neg : Bool) (k : ClassKind) (c : Char) : Bool :=
  let base :=
    match k with
    | .digit => c.isDigit
    | .space => isPySpace c
    | .word => c.isAlphanum || c = '_'
  if neg then !base else base

/-- Regular-expression abstract syntax (anchors are handled separately). -/
inductive Re where
  | emp
  | eps
  | chr (c : Char)
  | cls (neg : Bool) (k : ClassKind)
  | dot
  | seq (a b : Re)
  | alt (a b : Re)
  | star (a : Re)
deriving DecidableEq

/-- Whether `r` accepts the empty string. -/
def nullable : Re → Bool
  | .emp => false
  | .eps => true
  | .chr _ => false
  | .cls _ _ => false
  | .dot => false
  | .seq a b => nullable a && nullable b
  | .alt a b => nullable a || nullable b
  | .star _ => true

/-- Brzozowski derivative of `r` with respect to character `c`. -/
def derive : Re → Char → Re
  | .emp, _ => .emp
  | .eps, _ => .emp
  | .chr c, d => if c = d then .eps else .emp
  | .cls n k, d => if inClass n k d then .eps else .emp
  | .dot, d => if d = '\n' then .emp else .eps
  | .seq a b, d =>
    if nullable a then .alt (.seq (derive a d) b) (derive b d)
    else .seq (derive a d) b
  | .alt a b, d => .alt (derive a d) (derive b d)
  | .star a, d => .seq (derive a d) (.star a)

/-- Whether `r` matches the whole string `s`. -/
def fullMatch (r : Re) : Str → Bool
  | [] => nullable r
  | c :: cs => fullMatch (derive r c) cs

/-- Whether `r` matches some (possibly empty) initial segment of `s`. -/
def matchesHere (r : Re) : Str → Bool
  | [] => nullable r
  | c :: cs => nullable r || matchesHere (derive r c) cs

/-- A compiled pattern: a body with optional `^` / `$` anchors. -/
structure Regex where
  anchorStart : Bool
  body : Re
  anchorEnd : Bool
deriving DecidableEq

/-- Python `re.search`: try every start position (only position 0 when the
pattern is `^`-anchored); a `$`-anchored pattern must reach the end. -/
def Regex.search (re : Regex) (s : Str) : Bool :=
  let cands := if re.anchorStart then [s] else s.tails
  cands.any fun u => if re.anchorEnd then fullMatch re.body u else matchesHere re.body u

/-- Translate one escape sequence (`\x` for character `x`). Class escapes give
classes, control escapes give control characters, other alphanumeric escapes
are errors (as in Python), the rest are literal. -/
def parseEscape (c : Char) : Option Re :=
  match c with
  | 'd' => some (.cls false .digit)
  | 'D' => some (.cls true .digit)
  | 's' => some (.cls false .space)
  | 'S' => some (.cls true .space)
  | 'w' => some (.cls false .word)
  | 'W' => some (.cls true .word)
  | 'n' => some (.chr '\n')
  | 't' => some (.chr '\t')
  | 'r' => some (.chr '\r')
  | 'f' => some (.chr '\x0c')
  | 'v' => some (.chr '\x0b')
  | _ => if c.isAlphanum then none else some (.chr c)

/-- Characters that cannot stand alone as a literal atom. -/
def metaChars : List Char := [')', '|', '*', '+', '?', '^', '$', '[']

/-- Apply trailing repetition operators `*`, `+`, `?` to an atom. -/
def applyReps (r : Re) : Str → Re × Str
  | '*' :: rest => applyReps (.star r) rest
  | '+' :: rest => applyReps (.seq r (.star r)) rest
  | '?' :: rest => applyReps (.alt r .eps) rest
  | rest => (r, rest)

mutual

/-- Parse a single atom (group, escape, dot, or literal character). -/
def parseAtom (fuel : Nat) (inp : Str) : Option (Re × Str) :=
  match fuel with
  | 0 => none
  | fuel + 1 =>
    match inp with
    | [] => none
    | '(' :: rest =>
      match parseAlt fuel rest with
      | some (a, ')' :: rest2) => some (a, rest2)
      | _ => none
    | '\\' :: e :: rest => (parseEscape e).map (·, rest)
    | '\\' :: [] => none
    | '.' :: rest => some (.dot, rest)
    | c :: rest => if c ∈ metaChars then none else some (.chr c, rest)

/-- Parse a concatenation of atoms, stopping at `)`, `|` or the end. -/
def parseSeq (fuel : Nat) (inp : Str) : Option (Re × Str) :=
  match fuel with
  | 0 => none
  | fuel + 1 =>
    match inp with
    | [] => some (.eps, [])
    | ')' :: _ => some (.eps, inp)
    | '|' :: _ => some (.eps, inp)
    | _ =>
      match parseAtom fuel inp with
      | none => none
      | some (a, rest) =>
        let (a, rest) := applyReps a rest
        match parseSeq fuel rest with
        | none => none
        | some (b, rest2) => some (.seq a b, rest2)

/-- Parse an alternation of concatenations. -/
def parseAlt (fuel : Nat) (inp : Str) : Option (Re × Str) :=
  match fuel with
  | 0 => none
  | fuel + 1 =>
    match parseSeq fuel inp with
    | none => none
    | some (a, rest) =>
      match rest with
      | '|' :: rest2 =>
        match parseAlt fuel rest2 with
        | none => none
        | some (b, rest3) => some (.alt a b, rest3)
      | _ => some (a, rest)

end

/-- Detect and remove an unescaped trailing `$` anchor. -/
def stripEndAnchor (p : Str) : Bool × Str :=
  match p.reverse with
  | '$' :: rest =>
    if (rest.takeWhile (· = '\\')).length % 2 = 0 then (true, rest.reverse)
    else (false, p)
  | _ => (false, p)

/-- Python `re.compile`: `none` models `re.error`. -/
def compile (pat : Str) : Option Regex :=
  let (aStart, p1) :=
    match pat with
    | '^' :: r => (true, r)
    | _ => (false, pat)
  let (aEnd, p2) := stripEndAnchor p1
  match parseAlt (3 * p2.length + 9) p2 with
  | some (r, []) => some ⟨aStart, r, aEnd⟩
  | _ => none

end PyRe

/-- The pattern-compilation loop of `filter_text_lines`: strip each pattern,
skip the empty ones, compile the rest; the first `re.error` aborts the whole
call (`none`). -/
def compilePatterns : List Str → Option (List PyRe.Regex)
  | [] => some []
  | p :: ps =>
    let q := pyStrip p
    if q = [] then compilePatterns ps
    else
      match PyRe.compile q with
      | none => none
      | some r =>
        match compilePatterns ps with
        | none => none
        | some rs => some (r :: rs)

/-- `filter_text_lines(text, regex_patterns)` from
src/logic/utils/filter_text_lines.py: remove the lines matching any of
the given regular-expression patterns; on a compile error return the text
unchanged. -/
def filter_text_lines (text : Str) (regex_patterns : List Str) : Str :=
  if regex_patterns.isEmpty then text
  else
    let lines := splitLines text
    match compilePatterns regex_patterns with
    | none => text
    | some compiled =>
      if compiled.isEmpty then text
      else
        joinLines (lines.filter fun line => !(compiled.any fun p => p.search line))

/-- One entry of `doc.get_toc()`: `(level, title, page)`.
`fitz` can report non-positive pages for broken outline targets. -/
structure OutlineEntry where
  level : Int
  title : Str
  page : Int
deriving DecidableEq

/-- One element of `self.sections`: `{"level": .., "title": .., "page": ..}`. -/
structure Section where
  level : Int
  title : Str
  page : Int
deriving DecidableEq

/-- The fixed keyword list of `extract_sections`. -/
def keywords : List Str :=
  ["概要".data, "結論".data, "はじめに".data, "序論".data,
   "結果".data, "考察".data, "謝辞".data, "付録".data]

/-- Python's substring operator `kw in line`. -/
def containsSub (kw line : Str) : Bool :=
  line.tails.any fun t => kw.isPrefixOf t

/-- `any(kw in line for kw in keywords) and len(line) < 80`. -/
def isHeadingLine (line : Str) : Bool :=
  (keywords.any fun kw => containsSub kw line) && line.length < 80

/-- `any(t[2] == p for t in toc)`. -/
def tocHasPage (toc : List OutlineEntry) (p : Int) : Bool :=
  toc.any fun t => t.page = p

/-- The inner `for line in lines[:5]` loop of `extract_sections` for the page
numbered `pageNum`: on the first keyword line shorter than 80 characters,
record `{level: 1, title: line.strip(), page: pageNum}` and stop — unless the
outline already has an entry for this page, in which case keep scanning
(and hence never record anything, the outline being unchanged). -/
def scanLines (toc : List OutlineEntry) (pageNum : Int) : List Str → Option Section
  | [] => none
  | line :: rest =>
    if isHeadingLine line then
      if tocHasPage toc pageNum then scanLines toc pageNum rest
      else some ⟨1, pyStrip line, pageNum⟩
    else scanLines toc pageNum rest

/-- The keyword scan of one page: split its text, look at the first 5 lines. -/
def heuristicForPage (toc : List OutlineEntry) (i : Nat) (text : Str) : Option Section :=
  scanLines toc ((i : Int) + 1) ((splitLines text).take 5)

/-- The `for i, text in enumerate(self.page_texts)` loop building
`keyword_sections`, started at page index `i`. -/
def keywordSectionsFrom (toc : List OutlineEntry) (i : Nat) : List Str → List Section
  | [] => []
  | text :: rest =>
    match heuristicForPage toc i text with
    | some s => s :: keywordSectionsFrom toc (i + 1) rest
    | none => keywordSectionsFrom toc (i + 1) rest

/-- The full `keyword_sections` list. -/
def keywordSections (toc : List OutlineEntry) (texts : List Str) : List Section :=
  keywordSectionsFrom toc 0 texts

/-- The outline loop: every toc entry with `page > 0` becomes a section. -/
def outlineSections (toc : List OutlineEntry) : List Section :=
  toc.filterMap fun t => if 0 < t.page then some ⟨t.level, t.title, t.page⟩ else none

/-- The merge loop: append each keyword section unless some section already in
the (growing) list has the same title and page. -/
def addKeywordSections (secs : List Section) : List Section → List Section
  | [] => secs
  | k :: ks =>
    if secs.any (fun s => decide (s.title = k.title ∧ s.page = k.page)) then
      addKeywordSections secs ks
    else addKeywordSections (secs ++ [k]) ks

/-- `self.sections` just before the final sort. -/
def mergedSections (toc : List OutlineEntry) (texts : List Str) : List Section :=
  addKeywordSections (outlineSections toc) (keywordSections toc texts)

/-- The comparison of `self.sections.sort(key=lambda x: x["page"])`. -/
def pageLE (a b : Section) : Bool := a.page ≤ b.page

/-- `extract_sections` as a function of the outline and the page texts:
merge outline and keyword sections, then sort stably by page
(Python's `list.sort` is stable; `List.mergeSort` is the stable sort). -/
def extract_sections (toc : List OutlineEntry) (texts : List Str) : List Section :=
  (mergedSections toc texts).mergeSort pageLE

/-! ### Lemmas about `splitLines` and `joinLines` -/

theorem splitLines_ne_nil (s : Str) : splitLines s ≠ [] := by
  induction s with
  | nil => simp [splitLines]
  | cons c cs ih =>
    simp only [splitLines]
    split
    · simp
    · cases h : splitLines cs with
      | nil => simp
      | cons l ls => simp [h]

theorem not_mem_of_mem_splitLines {s : Str} {l : Str} (h : l ∈ splitLines s) :
    '\n' ∉ l := by
  induction s generalizing l with
  | nil =>
    simp only [splitLines, List.mem_singleton] at h
    subst h; simp
  | cons c cs ih =>
    simp only [splitLines] at h
    split at h
    · rcases List.mem_cons.mp h with rfl | h
      · simp
      · exact ih h
    · rename_i hc
      cases hsp : splitLines cs with
      | nil => exact absurd hsp (splitLines_ne_nil cs)
      | cons m ms =>
        rw [hsp] at h
        rcases List.mem_cons.mp h with rfl | h
        · intro hm
          rcases List.mem_cons.mp hm with rfl | hm
          · exact hc rfl
          · exact ih (hsp ▸ List.mem_cons_self m ms) hm
        · exact ih (hsp ▸ List.mem_cons_of_mem m h)

theorem splitLines_of_no_newline {l : Str} (h : '\n' ∉ l) : splitLines l = [l] := by
  induction l with
  | nil => rfl
  | cons c cs ih =>
    simp only [List.mem_cons, not_or] at h
    simp only [splitLines]
    rw [if_neg (fun hc => h.1 hc.symm), ih h.2]

theorem splitLines_append_newline {l t : Str} (h : '\n' ∉ l) :
    splitLines (l ++ '\n' :: t) = l :: splitLines t := by
  induction l with
  | nil => simp [splitLines]
  | cons c cs ih =>
    simp only [List.mem_cons, not_or] at h
    have hne : ¬ c = '\n' := fun hc => h.1 hc.symm
    show splitLines (c :: (cs ++ '\n' :: t)) = _
    rw [splitLines, if_neg hne, ih h.2]

theorem splitLines_joinLines {ls : List Str} (hne : ls ≠ [])
    (h : ∀ l ∈ ls, '\n' ∉ l) : splitLines (joinLines ls) = ls := by
  induction ls with
  | nil => exact absurd rfl hne
  | cons l ls ih =>
    cases ls with
    | nil => exact splitLines_of_no_newline (h l (List.mem_singleton_self l))
    | cons m ms =>
      show splitLines (l ++ '\n' :: joinLines (m :: ms)) = _
      rw [splitLines_append_newline (h l (List.mem_cons_self l _))]
      rw [ih (by simp) (fun x hx => h x (List.mem_cons_of_mem l hx))]

/-! ### Lemmas about `compilePatterns` and `filter_text_lines` -/

theorem compilePatterns_eq_none {pats : List Str} {p : Str} (hp : p ∈ pats)
    (hq : pyStrip p ≠ []) (hc : PyRe.compile (pyStrip p) = none) :
    compilePatterns pats = none := by
  induction pats with
  | nil => simp at hp
  | cons q qs ih =>
    rcases List.mem_cons.mp hp with rfl | hp
    · simp only [compilePatterns]
      rw [if_neg hq, hc]
    · simp only [compilePatterns]
      split
      · exact ih hp
      · rw [ih hp]
        cases PyRe.compile (pyStrip q) <;> simp

theorem compilePatterns_of_all_empty {pats : List Str}
    (h : ∀ p ∈ pats, pyStrip p = []) : compilePatterns pats = some [] := by
  induction pats with
  | nil => rfl
  | cons q qs ih =>
    simp only [compilePatterns]
    rw [if_pos (h q (List.mem_cons_self q qs))]
    exact ih fun p hp => h p (List.mem_cons_of_mem q hp)

theorem compilePatterns_of_all_valid {pats : List Str}
    (h : ∀ p ∈ pats, pyStrip p ≠ [] ∧ (PyRe.compile (pyStrip p)).isSome) :
    ∃ rs, compilePatterns pats = some rs ∧ (pats ≠ [] → rs ≠ []) := by
  induction pats with
  | nil => exact ⟨[], rfl, fun h => absurd rfl h⟩
  | cons q qs ih =>
    obtain ⟨hq, hs⟩ := h q (List.mem_cons_self q qs)
    obtain ⟨r, hr⟩ := Option.isSome_iff_exists.mp hs
    obtain ⟨rs, hrs, -⟩ := ih fun p hp => h p (List.mem_cons_of_mem q hp)
    refine ⟨r :: rs, ?_, fun _ => by simp⟩
    simp only [compilePatterns]
    rw [if_neg hq, hr, hrs]

theorem filter_text_lines_of_compile_fail {text : Str} {pats : List Str}
    (h : compilePatterns pats = none) : filter_text_lines text pats = text := by
  cases pats with
  | nil => simp [compilePatterns] at h
  | cons q qs =>
    simp only [filter_text_lines, List.isEmpty_cons]
    rw [h]
    simp

theorem filter_text_lines_of_compile_some {text : Str} {pats : List Str}
    {rs : List PyRe.Regex} (h : compilePatterns pats = some rs) (hne : rs ≠ []) :
    filter_text_lines text pats =
      joinLines ((splitLines text).filter fun line =>
        !(rs.any fun p => p.search line)) := by
  cases pats with
  | nil =>
    simp only [compilePatterns, Option.some.injEq] at h
    exact absurd h.symm hne
  | cons q qs =>
    simp only [filter_text_lines, List.isEmpty_cons]
    rw [h]
    simp only [List.isEmpty_iff]
    rw [if_neg hne]
    simp

/-! ### Lemmas about the section-extraction pipeline -/

theorem scanLines_eq_some {toc : List OutlineEntry} {p : Int} {lines : List Str}
    {s : Section} (h : scanLines toc p lines = some s) :
    tocHasPage toc p = false ∧
    ∃ pre line post, lines = pre ++ line :: post ∧
      (∀ l ∈ pre, isHeadingLine l = false) ∧ isHeadingLine line = true ∧
      s = ⟨1, pyStrip line, p⟩ := by
  induction lines with
  | nil => simp [scanLines] at h
  | cons line rest ih =>
    simp only [scanLines] at h
    by_cases hh : isHeadingLine line = true
    · rw [if_pos hh] at h
      by_cases ht : tocHasPage toc p = true
      · rw [if_pos ht] at h
        obtain ⟨htoc, -⟩ := ih h
        rw [htoc] at ht
        cases ht
      · rw [if_neg ht] at h
        refine ⟨Bool.not_eq_true _ ▸ ht, [], line, rest, rfl, by simp, hh, ?_⟩
        exact (Option.some.injEq _ _ ▸ h).symm
    · rw [if_neg hh] at h
      obtain ⟨htoc, pre, l, post, heq, hpre, hl, hs⟩ := ih h
      refine ⟨htoc, line :: pre, l, post, by simp [heq], ?_, hl, hs⟩
      intro x hx
      rcases List.mem_cons.mp hx with rfl | hx
      · exact Bool.not_eq_true _ ▸ hh
      · exact hpre x hx

theorem heuristicForPage_eq_some {toc : List OutlineEntry} {i : Nat} {text : Str}
    {s : Section} (h : heuristicForPage toc i text = some s) :
    s.page = (i : Int) + 1 ∧ s.level = 1 ∧ tocHasPage toc ((i : Int) + 1) = false ∧
    ∃ pre line post, (splitLines text).take 5 = pre ++ line :: post ∧
      (∀ l ∈ pre, isHeadingLine l = false) ∧ isHeadingLine line = true ∧
      s.title = pyStrip line := by
  obtain ⟨htoc, pre, line, post, heq, hpre, hl, hs⟩ := scanLines_eq_some h
  subst hs
  exact ⟨rfl, rfl, htoc, pre, line, post, heq, hpre, hl, rfl⟩

theorem mem_keywordSectionsFrom {toc : List OutlineEntry} {i : Nat} {ts : List Str}
    {s : Section} (h : s ∈ keywordSectionsFrom toc i ts) :
    ∃ j text, ts[j]? = some text ∧ heuristicForPage toc (i + j) text = some s := by
  induction ts generalizing i with
  | nil => simp [keywordSectionsFrom] at h
  | cons t ts ih =>
    simp only [keywordSectionsFrom] at h
    cases hh : heuristicForPage toc i t with
    | some s0 =>
      rw [hh] at h
      rcases List.mem_cons.mp h with rfl | h
      · exact ⟨0, t, by simp, by simpa using hh⟩
      · obtain ⟨j, text, hj, hp⟩ := ih h
        refine ⟨j + 1, text, by simpa using hj, ?_⟩
        rw [show i + (j + 1) = i + 1 + j by omega]
        exact hp
    | none =>
      rw [hh] at h
      obtain ⟨j, text, hj, hp⟩ := ih h
      refine ⟨j + 1, text, by simpa using hj, ?_⟩
      rw [show i + (j + 1) = i + 1 + j by omega]
      exact hp

theorem page_lt_of_mem_keywordSectionsFrom {toc : List OutlineEntry} {i : Nat}
    {ts : List Str} {s : Section} (h : s ∈ keywordSectionsFrom toc i ts) :
    (i : Int) < s.page := by
  obtain ⟨j, text, -, hp⟩ := mem_keywordSectionsFrom h
  have := (heuristicForPage_eq_some hp).1
  rw [this]
  push_cast
  omega

theorem keywordSectionsFrom_pairwise_lt (toc : List OutlineEntry) (i : Nat)
    (ts : List Str) :
    (keywordSectionsFrom toc i ts).Pairwise fun a b => a.page < b.page := by
  induction ts generalizing i with
  | nil => exact List.Pairwise.nil
  | cons t ts ih =>
    simp only [keywordSectionsFrom]
    cases hh : heuristicForPage toc i t with
    | some s0 =>
      refine List.Pairwise.cons ?_ (ih (i + 1))
      intro b hb
      have hb' := page_lt_of_mem_keywordSectionsFrom hb
      have hs0 := (heuristicForPage_eq_some hh).1
      rw [hs0]
      push_cast at hb' ⊢
      omega
    | none => exact ih (i + 1)

theorem mem_addKeywordSections {secs ks : List Section} {s : Section}
    (h : s ∈ addKeywordSections secs ks) : s ∈ secs ∨ s ∈ ks := by
  induction ks generalizing secs with
  | nil => exact Or.inl h
  | cons k ks ih =>
    simp only [addKeywordSections] at h
    split at h
    · rcases ih h with h | h
      · exact Or.inl h
      · exact Or.inr (List.mem_cons_of_mem k h)
    · rcases ih h with h | h
      · rcases List.mem_append.mp h with h | h
        · exact Or.inl h
        · exact Or.inr (List.mem_singleton.mp h ▸ List.mem_cons_self k ks)
      · exact Or.inr (List.mem_cons_of_mem k h)

theorem sublist_addKeywordSections (secs ks : List Section) :
    secs.Sublist (addKeywordSections secs ks) := by
  induction ks generalizing secs with
  | nil => exact List.Sublist.refl secs
  | cons k ks ih =>
    simp only [addKeywordSections]
    split
    · exact ih secs
    · exact (List.sublist_append_left secs [k]).trans (ih (secs ++ [k]))

theorem addKeywordSections_pairwise {secs ks : List Section}
    (h : secs.Pairwise fun a b => ¬(a.title = b.title ∧ a.page = b.page)) :
    (addKeywordSections secs ks).Pairwise
      fun a b => ¬(a.title = b.title ∧ a.page = b.page) := by
  induction ks generalizing secs with
  | nil => exact h
  | cons k ks ih =>
    simp only [addKeywordSections]
    split
    · exact ih h
    · rename_i hany
      apply ih
      rw [List.pairwise_append]
      refine ⟨h, by simp, ?_⟩
      intro a ha b hb
      rw [List.mem_singleton.mp hb]
      have := List.any_eq_false.mp (Bool.not_eq_true _ ▸ hany) a ha
      simpa using this

theorem mem_extract_sections {toc : List OutlineEntry} {texts : List Str}
    {s : Section} : s ∈ extract_sections toc texts ↔ s ∈ mergedSections toc texts :=
  List.mem_mergeSort

theorem page_pos_of_mem_outlineSections {toc : List OutlineEntry} {s : Section}
    (h : s ∈ outlineSections toc) : 0 < s.page := by
  obtain ⟨t, -, ht⟩ := List.mem_filterMap.mp h
  by_cases hp : 0 < t.page
  · rw [if_pos hp] at ht
    cases ht
    exact hp
  · rw [if_neg hp] at ht
    cases ht

theorem pageLE_trans : ∀ a b c : Section,
    pageLE a b = true → pageLE b c = true → pageLE a c = true := by
  intro a b c hab hbc
  simp only [pageLE, decide_eq_true_eq] at hab hbc ⊢
  omega

theorem pageLE_total : ∀ a b : Section, (pageLE a b || pageLE b a) = true := by
  intro a b
  simp only [pageLE, Bool.or_eq_true, decide_eq_true_eq]
  omega

theorem extract_sections_filter_page (toc : List OutlineEntry) (texts : List Str)
    (p : Int) :
    (extract_sections toc texts).filter (fun s => decide (s.page = p)) =
      (mergedSections toc texts).filter (fun s => decide (s.page = p)) := by
  set l := mergedSections toc texts with hl
  set pp : Section → Bool := fun s => decide (s.page = p) with hpp
  have hpair : (l.filter pp).Pairwise fun a b => pageLE a b = true := by
    apply List.pairwise_of_forall_mem_list
    intro a ha b hb
    have ha' := (List.mem_filter.mp ha).2
    have hb' := (List.mem_filter.mp hb).2
    simp only [hpp, decide_eq_true_eq] at ha' hb'
    simp only [pageLE, decide_eq_true_eq]
    omega
  have hsub : (l.filter pp).Sublist (extract_sections toc texts) :=
    List.sublist_mergeSort pageLE_trans pageLE_total hpair (List.filter_sublist l)
  have hself : (l.filter pp).filter pp = l.filter pp :=
    List.filter_eq_self.mpr fun a ha => (List.mem_filter.mp ha).2
  have hsub2 : (l.filter pp).Sublist ((extract_sections toc texts).filter pp) :=
    hself ▸ List.Sublist.filter pp hsub
  have hperm : ((extract_sections toc texts).filter pp).Perm (l.filter pp) :=
    List.Perm.filter pp (List.mergeSort_perm l pageLE)
  exact (hsub2.eq_of_length hperm.length_eq.symm).symm

theorem addKeywordSections_exists_suffix (secs ks : List Section) :
    ∃ suf, addKeywordSections secs ks = secs ++ suf ∧ ∀ s ∈ suf, s ∈ ks := by
  induction ks generalizing secs with
  | nil => exact ⟨[], by simp [addKeywordSections], by simp⟩
  | cons k ks ih =>
    simp only [addKeywordSections]
    split
    · obtain ⟨suf, h1, h2⟩ := ih secs
      exact ⟨suf, h1, fun s hs => List.mem_cons_of_mem k (h2 s hs)⟩
    · obtain ⟨suf, h1, h2⟩ := ih (secs ++ [k])
      refine ⟨k :: suf, by simp [h1], ?_⟩
      intro s hs
      rcases List.mem_cons.mp hs with h | hs
      · rw [h]
        exact List.mem_cons_self _ _
      · exact List.mem_cons_of_mem _ (h2 s hs)

theorem joinLines_filter_stable (keep : Str → Bool) (lines0 : List Str)
    (hnl : ∀ l ∈ lines0, '\n' ∉ l) :
    joinLines ((splitLines (joinLines (lines0.filter keep))).filter keep)
      = joinLines (lines0.filter keep) := by
  cases hK : lines0.filter keep with
  | nil =>
    by_cases h0 : keep [] = true
    · simp [joinLines, splitLines, List.filter, h0]
    · simp only [Bool.not_eq_true] at h0
      simp [joinLines, splitLines, List.filter, h0]
  | cons m ms =>
    have hsub : ∀ l ∈ (m :: ms), '\n' ∉ l := by
      intro l hl
      rw [← hK] at hl
      exact hnl l (List.mem_of_mem_filter hl)
    rw [splitLines_joinLines (by simp) hsub]
    have hkeep : (m :: ms).filter keep = m :: ms := by
      apply List.filter_eq_self.mpr
      intro a ha
      rw [← hK] at ha
      exact (List.mem_filter.mp ha).2
    rw [hkeep]

/-! ### Claim theorems -/

/-- C7: `filter_text_lines` is the identity when the pattern list is empty or
when every pattern in it is empty or whitespace-only after trimming. -/
theorem filter_text_lines_identity_of_blank_patterns (text : Str) (pats : List Str)
    (h : ∀ p ∈ pats, pyStrip p = []) : filter_text_lines text pats = text := by
  cases pats with
  | nil => simp [filter_text_lines]
  | cons q qs =>
    simp only [filter_text_lines, List.isEmpty_cons]
    rw [compilePatterns_of_all_empty h]
    simp

theorem filter_text_lines_identity_of_blank_patterns_witness :
    (∀ p ∈ (["   ".data, [], "\t\n".data] : List Str), pyStrip p = []) ∧
    filter_text_lines "a\nb".data ["   ".data, [], "\t\n".data] = "a\nb".data :=
  ⟨by decide,
   filter_text_lines_identity_of_blank_patterns "a\nb".data
     ["   ".data, [], "\t\n".data] (by decide)⟩

/-- C5: if any supplied pattern is non-empty after trimming and fails to
compile, `filter_text_lines` returns the input text unchanged (fail-open),
regardless of the other patterns; in particular
`filter_text_lines t ["onlyinvalid("] = t` for every `t`. -/
theorem filter_text_lines_fail_open (text : Str) (pats : List Str)
    (h : ∃ p ∈ pats, pyStrip p ≠ [] ∧ PyRe.compile (pyStrip p) = none) :
    filter_text_lines text pats = text ∧
    ∀ t : Str, filter_text_lines t ["onlyinvalid(".data] = t := by
  obtain ⟨p, hp, hq, hc⟩ := h
  refine ⟨filter_text_lines_of_compile_fail (compilePatterns_eq_none hp hq hc), ?_⟩
  intro t
  apply filter_text_lines_of_compile_fail
  exact compilePatterns_eq_none (List.mem_singleton_self _) (by decide) (by decide)

theorem filter_text_lines_fail_open_witness :
    (∃ p ∈ (["ok".data, "onlyinvalid(".data] : List Str),
      pyStrip p ≠ [] ∧ PyRe.compile (pyStrip p) = none) ∧
    filter_text_lines "x\ny".data ["ok".data, "onlyinvalid(".data] = "x\ny".data :=
  ⟨by decide,
   (filter_text_lines_fail_open "x\ny".data ["ok".data, "onlyinvalid(".data]
     (by decide)).1⟩

/-- C6: when every pattern is non-empty after trimming and compiles,
`filter_text_lines` splits on newline, keeps exactly the lines matched by no
compiled pattern under `search` semantics, and rejoins with newline; in
particular the `Page 3` line of `"keep\nPage 3\nalso keep"` is removed by the
pattern `^\s*Page\s+\d+\s*$`. -/
theorem filter_text_lines_keeps_unmatched_lines (text : Str) (pats : List Str)
    (hne : pats ≠ [])
    (h : ∀ p ∈ pats, pyStrip p ≠ [] ∧ (PyRe.compile (pyStrip p)).isSome) :
    (∃ rs, compilePatterns pats = some rs ∧ rs ≠ [] ∧
      filter_text_lines text pats =
        joinLines ((splitLines text).filter fun line =>
          !(rs.any fun r => r.search line))) ∧
    filter_text_lines "keep\nPage 3\nalso keep".data ["^\\s*Page\\s+\\d+\\s*$".data] =
      "keep\nalso keep".data := by
  obtain ⟨rs, hrs, hne'⟩ := compilePatterns_of_all_valid h
  exact ⟨⟨rs, hrs, hne' hne, filter_text_lines_of_compile_some hrs (hne' hne)⟩,
    by decide⟩

theorem filter_text_lines_keeps_unmatched_lines_witness :
    ((["b".data] : List Str) ≠ []) ∧
    (∀ p ∈ (["b".data] : List Str),
      pyStrip p ≠ [] ∧ (PyRe.compile (pyStrip p)).isSome) ∧
    (∃ rs, compilePatterns ["b".data] = some rs ∧ rs ≠ [] ∧
      filter_text_lines "a\nb".data ["b".data] =
        joinLines ((splitLines "a\nb".data).filter fun line =>
          !(rs.any fun r => r.search line))) :=
  ⟨by decide, by decide,
   (filter_text_lines_keeps_unmatched_lines "a\nb".data ["b".data]
     (by decide) (by decide)).1⟩

/-- C9: `filter_text_lines` is idempotent: filtering an already-filtered text
with the same patterns changes nothing. -/
theorem filter_text_lines_idempotent (text : Str) (pats : List Str) :
    filter_text_lines (filter_text_lines text pats) pats =
      filter_text_lines text pats := by
  cases hc : compilePatterns pats with
  | none =>
    rw [filter_text_lines_of_compile_fail hc, filter_text_lines_of_compile_fail hc]
  | some rs =>
    cases hrs : rs with
    | nil =>
      subst hrs
      cases pats with
      | nil => simp [filter_text_lines]
      | cons q qs =>
        have h : filter_text_lines text (q :: qs) = text := by
          simp only [filter_text_lines, List.isEmpty_cons]
          rw [hc]
          simp
        rw [h]
        simp only [filter_text_lines, List.isEmpty_cons]
        rw [hc]
        simp
    | cons r0 rs0 =>
      subst hrs
      rw [filter_text_lines_of_compile_some hc (by simp)]
      rw [filter_text_lines_of_compile_some hc (by simp)]
      exact joinLines_filter_stable _ (splitLines text)
        (fun l hl => not_mem_of_mem_splitLines hl)

/-- C1 (counterexample): when the outline itself contains two entries with
equal title and page, `extract_sections` outputs both, so its output is not
unique by (title, page). -/
theorem extract_sections_dup_counterexample :
    ¬ (extract_sections [⟨1, "A".data, 1⟩, ⟨1, "A".data, 1⟩] []).Pairwise
        (fun a b => ¬(a.title = b.title ∧ a.page = b.page)) := by
  have h : mergedSections [⟨1, "A".data, 1⟩, ⟨1, "A".data, 1⟩] [] =
      [⟨1, "A".data, 1⟩, ⟨1, "A".data, 1⟩] := by decide
  have h2 : extract_sections [⟨1, "A".data, 1⟩, ⟨1, "A".data, 1⟩] [] =
      [⟨1, "A".data, 1⟩, ⟨1, "A".data, 1⟩] := by
    rw [extract_sections, h]
    exact List.mergeSort_of_sorted (by decide)
  rw [h2]
  decide

/-- C1 (amended): provided no two outline entries with positive page share
both title and page, no two entries of `extract_sections` share both title
and page (the merge loop never adds a keyword section duplicating an existing
entry, and two keyword sections are on distinct pages). -/
theorem extract_sections_nodup_title_page (toc : List OutlineEntry)
    (texts : List Str)
    (h : toc.Pairwise fun t u => 0 < t.page → 0 < u.page →
      ¬(t.title = u.title ∧ t.page = u.page)) :
    (extract_sections toc texts).Pairwise
      (fun a b => ¬(a.title = b.title ∧ a.page = b.page)) := by
  have houtline : (outlineSections toc).Pairwise
      (fun a b => ¬(a.title = b.title ∧ a.page = b.page)) := by
    rw [outlineSections, List.pairwise_filterMap]
    refine h.imp ?_
    intro t u htu b hb b' hb'
    by_cases hp : 0 < t.page
    · rw [if_pos hp] at hb
      by_cases hp' : 0 < u.page
      · rw [if_pos hp'] at hb'
        rw [Option.mem_some_iff] at hb hb'
        subst hb
        subst hb'
        intro hc
        exact htu hp hp' ⟨hc.1, hc.2⟩
      · rw [if_neg hp'] at hb'
        simp at hb'
    · rw [if_neg hp] at hb
      simp at hb
  have hmerged : (mergedSections toc texts).Pairwise
      (fun a b => ¬(a.title = b.title ∧ a.page = b.page)) :=
    addKeywordSections_pairwise houtline
  have hsymm : ∀ {x y : Section},
      (¬(x.title = y.title ∧ x.page = y.page)) →
      ¬(y.title = x.title ∧ y.page = x.page) :=
    fun hxy hc => hxy ⟨hc.1.symm, hc.2.symm⟩
  exact (List.Perm.pairwise_iff hsymm
    (List.mergeSort_perm (mergedSections toc texts) pageLE)).mpr hmerged

theorem extract_sections_nodup_title_page_witness :
    (([⟨1, "A".data, 1⟩, ⟨2, "B".data, 2⟩] :
        List OutlineEntry).Pairwise fun t u => 0 < t.page → 0 < u.page →
      ¬(t.title = u.title ∧ t.page = u.page)) ∧
    (extract_sections [⟨1, "A".data, 1⟩, ⟨2, "B".data, 2⟩] []).Pairwise
      (fun a b => ¬(a.title = b.title ∧ a.page = b.page)) :=
  ⟨by decide,
   extract_sections_nodup_title_page [⟨1, "A".data, 1⟩, ⟨2, "B".data, 2⟩] []
     (by decide)⟩

/-- C2: the output of `extract_sections` is sorted non-decreasing by page, the
relative order of entries with equal page is their insertion order in the
pre-sort merged list, and that merged list puts all outline-derived sections
before every heuristic-derived one. -/
theorem extract_sections_sorted_stable (toc : List OutlineEntry)
    (texts : List Str) :
    (extract_sections toc texts).Pairwise (fun a b => a.page ≤ b.page) ∧
    (∀ p : Int, (extract_sections toc texts).filter (fun s => decide (s.page = p)) =
      (mergedSections toc texts).filter (fun s => decide (s.page = p))) ∧
    ∃ hs, mergedSections toc texts = outlineSections toc ++ hs ∧
      ∀ s ∈ hs, s ∈ keywordSections toc texts := by
  refine ⟨?_, extract_sections_filter_page toc texts,
    addKeywordSections_exists_suffix (outlineSections toc) (keywordSections toc texts)⟩
  have h := List.sorted_mergeSort pageLE_trans pageLE_total (mergedSections toc texts)
  exact h.imp fun hab => by simpa [pageLE] using hab

/-- C3: if the outline has an entry for page `i + 1`, then every entry of the
output whose page is `i + 1` is outline-derived — no heuristic section for
that page appears, whatever the page's text contains. -/
theorem no_heuristic_for_outlined_page (toc : List OutlineEntry)
    (texts : List Str) (i : Nat) (h : ∃ t ∈ toc, t.page = (i : Int) + 1) :
    ∀ s ∈ extract_sections toc texts, s.page = (i : Int) + 1 →
      s ∈ outlineSections toc := by
  intro s hs hp
  rcases mem_addKeywordSections (mem_extract_sections.mp hs) with h1 | h1
  · exact h1
  · exfalso
    obtain ⟨j, text, -, hj⟩ := mem_keywordSectionsFrom h1
    obtain ⟨hpage, -, htoc, -⟩ := heuristicForPage_eq_some hj
    have heq : ((0 + j : Nat) : Int) + 1 = (i : Int) + 1 := hpage.symm.trans hp
    rw [heq] at htoc
    have htrue : tocHasPage toc ((i : Int) + 1) = true := by
      rw [tocHasPage, List.any_eq_true]
      obtain ⟨t, ht, hte⟩ := h
      exact ⟨t, ht, by simp [hte]⟩
    rw [htoc] at htrue
    cases htrue

theorem no_heuristic_for_outlined_page_witness :
    (∃ t ∈ ([⟨1, "x".data, 1⟩] : List OutlineEntry),
      t.page = ((0 : Nat) : Int) + 1) ∧
    ∀ s ∈ extract_sections [⟨1, "x".data, 1⟩] ["概要".data],
      s.page = ((0 : Nat) : Int) + 1 → s ∈ outlineSections [⟨1, "x".data, 1⟩] :=
  ⟨by decide,
   no_heuristic_for_outlined_page [⟨1, "x".data, 1⟩] ["概要".data] 0 (by decide)⟩

/-- What claim C4 asserts of a recorded heuristic candidate: it comes from the
first line among the first 5 lines of its page's text that contains a keyword
and is under 80 characters, with the stripped line as title. -/
def isFirstHeadingCandidate (texts : List Str) (s : Section) : Prop :=
  ∃ (i : Nat) (text : Str), texts[i]? = some text ∧ s.page = (i : Int) + 1 ∧ s.level = 1 ∧
    ∃ pre line post, (splitLines text).take 5 = pre ++ line :: post ∧
      (∀ l ∈ pre, isHeadingLine l = false) ∧
      (keywords.any fun kw => containsSub kw line) = true ∧ line.length < 80 ∧
      s.title = pyStrip line

/-- C4: every recorded heuristic candidate is, for its page, the first line
among the first 5 of the page's text that contains a keyword and has length
under 80; and at most one candidate is recorded per page (all recorded
candidates are on pairwise distinct pages). -/
theorem keyword_candidate_characterization (toc : List OutlineEntry)
    (texts : List Str) :
    (∀ s ∈ keywordSections toc texts, isFirstHeadingCandidate texts s) ∧
    (keywordSections toc texts).Pairwise (fun a b => a.page ≠ b.page) := by
  constructor
  · intro s hs
    obtain ⟨j, text, hj, hp⟩ := mem_keywordSectionsFrom hs
    rw [Nat.zero_add] at hp
    obtain ⟨hpage, hlevel, -, pre, line, post, heq, hpre, hline, htitle⟩ :=
      heuristicForPage_eq_some hp
    rw [isHeadingLine, Bool.and_eq_true] at hline
    exact ⟨j, text, hj, hpage, hlevel, pre, line, post, heq, hpre, hline.1,
      of_decide_eq_true hline.2, htitle⟩
  · refine (keywordSectionsFrom_pairwise_lt toc 0 texts).imp ?_
    intro a b hab
    omega

theorem keyword_candidate_characterization_witness :
    ((⟨1, "概要".data, 1⟩ : Section) ∈ keywordSections [] ["概要".data]) ∧
    isFirstHeadingCandidate ["概要".data] ⟨1, "概要".data, 1⟩ :=
  ⟨by decide,
   (keyword_candidate_characterization [] ["概要".data]).1 _ (by decide)⟩

/-- C8: every outline entry with positive page appears in the output with
exactly its level, title and page; and every output entry has positive page,
so an outline entry with `page <= 0` yields no section. -/
theorem outline_entries_in_output (toc : List OutlineEntry) (texts : List Str) :
    (∀ t ∈ toc, 0 < t.page →
      (⟨t.level, t.title, t.page⟩ : Section) ∈ extract_sections toc texts) ∧
    (∀ s ∈ extract_sections toc texts, 0 < s.page) := by
  constructor
  · intro t ht hp
    apply mem_extract_sections.mpr
    have h1 : (⟨t.level, t.title, t.page⟩ : Section) ∈ outlineSections toc :=
      List.mem_filterMap.mpr ⟨t, ht, by rw [if_pos hp]⟩
    exact (sublist_addKeywordSections (outlineSections toc)
      (keywordSections toc texts)).subset h1
  · intro s hs
    rcases mem_addKeywordSections (mem_extract_sections.mp hs) with h1 | h1
    · exact page_pos_of_mem_outlineSections h1
    · have h2 := page_lt_of_mem_keywordSectionsFrom h1
      simpa using h2

theorem outline_entries_in_output_witness :
    ((⟨2, "T".data, 3⟩ : OutlineEntry) ∈ ([⟨2, "T".data, 3⟩] : List OutlineEntry)) ∧
    (0 : Int) < 3 ∧
    (⟨2, "T".data, 3⟩ : Section) ∈ extract_sections [⟨2, "T".data, 3⟩] [] :=
  ⟨by decide, by decide,
   (outline_entries_in_output [⟨2, "T".data, 3⟩] []).1 ⟨2, "T".data, 3⟩
     (by decide) (by decide)⟩

/-- What claim C10 asserts of a heuristic-derived output section: level 1,
title the stripped matching line, while the length bound was checked on the
unstripped line. -/
def heuristicShape (texts : List Str) (s : Section) : Prop :=
  s.level = 1 ∧ ∃ (i : Nat) (text : Str), texts[i]? = some text ∧ s.page = (i : Int) + 1 ∧
    ∃ line ∈ (splitLines text).take 5, line.length < 80 ∧ s.title = pyStrip line

/-- C10: every output section is outline-derived or has the heuristic shape
(level 1, title stripped from an unstripped line of length < 80); and a page
whose only keyword line has unstripped length 80 (stripped length 2) yields no
section at all — the length test precedes stripping. -/
theorem heuristic_sections_shape (toc : List OutlineEntry) (texts : List Str) :
    (∀ s ∈ extract_sections toc texts,
      s ∈ outlineSections toc ∨ heuristicShape texts s) ∧
    extract_sections [] [("概要".data ++ List.replicate 78 ' ')] = [] := by
  constructor
  · intro s hs
    rcases mem_addKeywordSections (mem_extract_sections.mp hs) with h1 | h1
    · exact Or.inl h1
    · right
      obtain ⟨j, text, hj, hp⟩ := mem_keywordSectionsFrom h1
      rw [Nat.zero_add] at hp
      obtain ⟨hpage, hlevel, -, pre, line, post, heq, -, hline, htitle⟩ :=
        heuristicForPage_eq_some hp
      rw [isHeadingLine, Bool.and_eq_true] at hline
      refine ⟨hlevel, j, text, hj, hpage, line, ?_, of_decide_eq_true hline.2, htitle⟩
      rw [heq]
      exact List.mem_append.mpr (Or.inr (List.mem_cons_self line post))
  · have h : mergedSections [] [("概要".data ++ List.replicate 78 ' ')] = [] := by
      decide
    rw [extract_sections, h, List.mergeSort_nil]

theorem heuristic_sections_shape_witness :
    ((⟨1, "概要".data, 1⟩ : Section) ∈ extract_sections [] ["概要".data]) ∧
    ((⟨1, "概要".data, 1⟩ : Section) ∈ outlineSections [] ∨
      heuristicShape ["概要".data] ⟨1, "概要".data, 1⟩) := by
  have hmem : (⟨1, "概要".data, 1⟩ : Section) ∈ extract_sections [] ["概要".data] := by
    have h : mergedSections [] ["概要".data] = [⟨1, "概要".data, 1⟩] := by decide
    rw [extract_sections, h, List.mergeSort_of_sorted (by decide)]
    exact List.mem_singleton_self _
  exact ⟨hmem, (heuristic_sections_shape [] ["概要".data]).1 _ hmem⟩
